import Mathlib

/-!
# Verification of `@marimo-team/codemirror-languageserver`

A shallow embedding of the core algorithms of the codemirror-languageserver
package: the position mapper (`posToOffset` / `offsetToPos`), the
bracket-balance predicate (`getParenthesesBalance` /
`isCursorInsideFunctionCall`), completion-trigger-kind inference
(`getCompletionTriggerKind`), the document synchronizer's version counter
(`sendChanges`), the completion ranker (`sortCompletionItems` from
`src/completion.ts`), and the language-server session (`lsp.ts`:
`initialize`, `onNotification`, `processNotification`).

Where the repository snapshot holds only the unit tests of a module
(`utils.ts`, `plugin.ts`), the definitions below are modelled from the
specification and pinned against the behaviour asserted by those tests.
-/

/-! ## Position mapper

Modelled from the spec: pure functions converting between a flat character
offset and a (line, character) coordinate pair, given a line-indexed text
buffer (the concrete `utils.ts` is not in the snapshot; behaviour is pinned
by `src/src/utils.test.ts` and `src/src/__tests__/config.test.ts`).
A buffer is a list of lines, implicitly joined by single newline characters.
-/

abbrev Doc := List (List Char)

/-- An LSP text position: zero-based line and character indices. -/
structure Pos where
  line : Nat
  character : Nat
deriving DecidableEq, Repr

/-- Length of line `i` of the buffer (0 for a line index out of range). -/
def lineLen (doc : Doc) (i : Nat) : Nat := (doc.getD i []).length

/-- Flat offset of the first character of line `i`
(each earlier line contributes its length plus one newline). -/
def lineFrom : Doc → Nat → Nat
  | _, 0 => 0
  | [], _ + 1 => 0
  | l :: rest, i + 1 => l.length + 1 + lineFrom rest i

/-- Total length of the buffer: line lengths plus the interior newlines. -/
def docLength : Doc → Nat
  | [] => 0
  | [l] => l.length
  | l :: l2 :: rest => l.length + 1 + docLength (l2 :: rest)

/-- Modelled from the spec: `posToOffset`.  A position on a line inside the
buffer maps to the flat offset `line start + character`, invalid (`none`)
when the character index runs past the end of that line; a line index at or
beyond the end of the buffer maps to the document length when the character
index is 0 and is invalid otherwise (pinned by `utils.test.ts` lines 270-299
and `config.test.ts` lines 132-147). -/
def posToOffset (doc : Doc) (pos : Pos) : Option Nat :=
  if doc.length ≤ pos.line then
    if pos.character = 0 then some (docLength doc) else none
  else if lineLen doc pos.line < pos.character then none
  else some (lineFrom doc pos.line + pos.character)

/-- Modelled from the spec: `offsetToPos`.  The line holding the offset and
the column within it; an offset equal to a line's end (the newline slot)
belongs to that line, as CodeMirror's `lineAt` resolves it. -/
def offsetToPos : Doc → Nat → Pos
  | [], off => ⟨0, off⟩
  | [_], off => ⟨0, off⟩
  | l :: l2 :: rest, off =>
    if off ≤ l.length then ⟨0, off⟩
    else
      let p := offsetToPos (l2 :: rest) (off - (l.length + 1))
      ⟨p.line + 1, p.character⟩

/-- Text of the buffer as one flat character list with newline separators. -/
def flattenDoc : Doc → List Char
  | [] => []
  | [l] => l
  | l :: l2 :: rest => l ++ '\n' :: flattenDoc (l2 :: rest)

theorem docLength_flattenDoc : ∀ doc : Doc, (flattenDoc doc).length = docLength doc
  | [] => rfl
  | [_] => rfl
  | _ :: l2 :: rest => by
    simp [flattenDoc, docLength, docLength_flattenDoc (l2 :: rest)]
    omega

theorem offsetToPos_lineFrom_add :
    ∀ (doc : Doc) (i c : Nat), i < doc.length → c ≤ lineLen doc i →
      offsetToPos doc (lineFrom doc i + c) = ⟨i, c⟩
  | [], i, _, hi, _ => by simp at hi
  | [l], i, c, hi, _ => by
    have : i = 0 := by simpa using Nat.lt_one_iff.mp (by simpa using hi)
    subst this
    simp [lineFrom, offsetToPos]
  | l :: l2 :: rest, 0, c, _, hc => by
    have hc' : c ≤ l.length := by simpa [lineLen] using hc
    simp [lineFrom, offsetToPos, hc']
  | l :: l2 :: rest, i + 1, c, hi, hc => by
    have hi' : i < (l2 :: rest).length := by simpa using Nat.lt_of_succ_lt_succ (by simpa using hi)
    have hc' : c ≤ lineLen (l2 :: rest) i := by simpa [lineLen] using hc
    have ih := offsetToPos_lineFrom_add (l2 :: rest) i c hi' hc'
    have hgt : ¬ (lineFrom (l :: l2 :: rest) (i + 1) + c ≤ l.length) := by
      simp [lineFrom]; omega
    simp only [offsetToPos, if_neg hgt]
    have harith : lineFrom (l :: l2 :: rest) (i + 1) + c - (l.length + 1)
        = lineFrom (l2 :: rest) i + c := by
      simp [lineFrom]; omega
    rw [harith, ih]

theorem offsetToPos_valid :
    ∀ (doc : Doc) (off : Nat), doc ≠ [] → off ≤ docLength doc →
      (offsetToPos doc off).line < doc.length ∧
      (offsetToPos doc off).character ≤ lineLen doc (offsetToPos doc off).line ∧
      lineFrom doc (offsetToPos doc off).line + (offsetToPos doc off).character = off
  | [], _, hne, _ => absurd rfl hne
  | [l], off, _, hoff => by
    refine ⟨by simp [offsetToPos], ?_, by simp [offsetToPos, lineFrom]⟩
    simpa [offsetToPos, lineLen] using hoff
  | l :: l2 :: rest, off, _, hoff => by
    by_cases h : off ≤ l.length
    · refine ⟨by simp [offsetToPos, h], ?_, by simp [offsetToPos, h, lineFrom]⟩
      simp [offsetToPos, h, lineLen]
    · have hoff' : off - (l.length + 1) ≤ docLength (l2 :: rest) := by
        have : docLength (l :: l2 :: rest) = l.length + 1 + docLength (l2 :: rest) := by
          simp [docLength]
        omega
      have ih := offsetToPos_valid (l2 :: rest) (off - (l.length + 1)) (by simp) hoff'
      refine ⟨?_, ?_, ?_⟩
      · simp only [offsetToPos, if_neg h]
        simpa using Nat.succ_lt_succ ih.1
      · simp only [offsetToPos, if_neg h]
        simpa [lineLen] using ih.2.1
      · simp only [offsetToPos, if_neg h]
        have := ih.2.2
        simp only [lineFrom]
        omega

/-- **C1.** For every text buffer and every valid (line, character) position,
`posToOffset` yields an offset that `offsetToPos` maps back to the position;
and for every valid offset, `offsetToPos` yields a position that
`posToOffset` maps back to the offset (round-trip law). -/
theorem posToOffset_offsetToPos_roundTrip (doc : Doc) (hne : doc ≠ []) :
    (∀ pos : Pos, pos.line < doc.length → pos.character ≤ lineLen doc pos.line →
      ∃ o, posToOffset doc pos = some o ∧ offsetToPos doc o = pos) ∧
    (∀ off : Nat, off ≤ docLength doc →
      posToOffset doc (offsetToPos doc off) = some off) := by
  constructor
  · intro pos hline hchar
    refine ⟨lineFrom doc pos.line + pos.character, ?_, ?_⟩
    · simp only [posToOffset, if_neg (by omega : ¬ doc.length ≤ pos.line),
        if_neg (by omega : ¬ lineLen doc pos.line < pos.character)]
    · exact offsetToPos_lineFrom_add doc pos.line pos.character hline hchar
  · intro off hoff
    obtain ⟨h1, h2, h3⟩ := offsetToPos_valid doc off hne hoff
    simp only [posToOffset, if_neg (by omega : ¬ doc.length ≤ (offsetToPos doc off).line),
      if_neg (by omega : ¬ lineLen doc (offsetToPos doc off).line < (offsetToPos doc off).character)]
    exact congrArg some h3

/-- Witness for C1 on the three-line buffer of `utils.test.ts`. -/
theorem posToOffset_offsetToPos_roundTrip_witness :
    (["line1".toList, "line2".toList, "line3".toList] : Doc) ≠ [] ∧
    (∃ o, posToOffset ["line1".toList, "line2".toList, "line3".toList] ⟨1, 2⟩ = some o ∧
      offsetToPos ["line1".toList, "line2".toList, "line3".toList] o = ⟨1, 2⟩) ∧
    posToOffset ["line1".toList, "line2".toList, "line3".toList]
      (offsetToPos ["line1".toList, "line2".toList, "line3".toList] 11) = some 11 := by
  have h := posToOffset_offsetToPos_roundTrip
    ["line1".toList, "line2".toList, "line3".toList] (by decide)
  exact ⟨by decide, h.1 ⟨1, 2⟩ (by decide) (by decide), h.2 11 (by decide)⟩

/-- **C5.** `posToOffset` on a character index beyond the addressed line's
length yields `none`, never a clamped offset. -/
theorem posToOffset_char_beyond_line (doc : Doc) (pos : Pos)
    (hline : pos.line < doc.length) (hchar : lineLen doc pos.line < pos.character) :
    posToOffset doc pos = none := by
  simp only [posToOffset, if_neg (by omega : ¬ doc.length ≤ pos.line), if_pos hchar]

/-- Witness for C5: `posToOffset(Text.of(["hello"]), {line: 0, character: 10})`
is undefined (`utils.test.ts` lines 281-284). -/
theorem posToOffset_char_beyond_line_witness :
    (⟨0, 10⟩ : Pos).line < ([("hello".toList)] : Doc).length ∧
    lineLen [("hello".toList)] 0 < 10 ∧
    posToOffset [("hello".toList)] ⟨0, 10⟩ = none :=
  ⟨by decide, by decide,
    posToOffset_char_beyond_line [("hello".toList)] ⟨0, 10⟩ (by decide) (by decide)⟩

/-- **C10.** For a line index at or beyond the number of lines, `posToOffset`
returns the document length when the character index is 0, and `none` for any
nonzero character index. -/
theorem posToOffset_line_beyond_doc (doc : Doc) (pos : Pos)
    (h : doc.length ≤ pos.line) :
    posToOffset doc pos = if pos.character = 0 then some (docLength doc) else none := by
  simp only [posToOffset, if_pos h]

/-- Witness for C10: on `Text.of(["hello"])`, `{line: 2, character: 0}` maps to
the document length 5 while `{line: 1, character: 1}` is undefined
(`utils.test.ts` lines 275-279). -/
theorem posToOffset_line_beyond_doc_witness :
    ([("hello".toList)] : Doc).length ≤ 2 ∧
    posToOffset [("hello".toList)] ⟨2, 0⟩ = some 5 ∧
    posToOffset [("hello".toList)] ⟨1, 1⟩ = none := by
  refine ⟨by decide, ?_, ?_⟩
  · rw [posToOffset_line_beyond_doc [("hello".toList)] ⟨2, 0⟩ (by decide)]
    decide
  · rw [posToOffset_line_beyond_doc [("hello".toList)] ⟨1, 1⟩ (by decide)]
    decide

/-! ## Cursor-inside-call predicate

Modelled from the spec: the Trigger Detector's bracket-balance scan
(`plugin.ts` is not in the snapshot; behaviour is pinned by
`src/src/__tests__/isCursorInsideFunctionCall.test.ts`).
-/

/-- Modelled from the spec: `getParenthesesBalance`.  Running parenthesis
balance of a text fragment: `(` increments, `)` decrements, every other
character — other bracket types and string-literal contents included — is
ignored. -/
def getParenthesesBalance (text : List Char) : Int :=
  text.foldl (fun b c => if c = '(' then b + 1 else if c = ')' then b - 1 else b) 0

/-- The window scanned by the cursor-inside-call predicate: the flat text
from the start of the line `maxLinesBack` lines above the cursor's line
(clamped to the first line) up to the cursor. -/
def scannedWindow (doc : Doc) (cursorPos maxLinesBack : Nat) : List Char :=
  ((flattenDoc doc).take cursorPos).drop
    (lineFrom doc ((offsetToPos doc cursorPos).line - maxLinesBack))

/-- Modelled from the spec: `isCursorInsideFunctionCall`.  Scanning backward
from the cursor through at most `maxLinesBack` lines (the callers default it
to 20), the cursor is inside a call iff the parenthesis balance over the
scanned window is strictly positive
(pinned by `isCursorInsideFunctionCall.test.ts` lines 76-223). -/
def isCursorInsideFunctionCall (doc : Doc) (cursorPos maxLinesBack : Nat) : Bool :=
  decide (0 < getParenthesesBalance (scannedWindow doc cursorPos maxLinesBack))

/-- **C2.** The cursor-inside-call predicate returns true iff the running
parenthesis balance over the scanned window (at most `maxLinesBack` lines
back, `(` up, `)` down, all other characters ignored) is strictly positive;
in particular it is true at the end of `"func("`, false at the end of
`"func()"`, true right after the inner close of `"outer(inner())"` but
before the outer close, and false right after the outer close. -/
theorem isCursorInsideFunctionCall_balance :
    (∀ (doc : Doc) (cursorPos maxLinesBack : Nat),
      isCursorInsideFunctionCall doc cursorPos maxLinesBack = true ↔
        0 < getParenthesesBalance (scannedWindow doc cursorPos maxLinesBack)) ∧
    isCursorInsideFunctionCall ["func(".toList] 5 20 = true ∧
    isCursorInsideFunctionCall ["func()".toList] 6 20 = false ∧
    isCursorInsideFunctionCall ["outer(inner())".toList] 13 20 = true ∧
    isCursorInsideFunctionCall ["outer(inner())".toList] 14 20 = false := by
  refine ⟨?_, by decide, by decide, by decide, by decide⟩
  intro doc cursorPos maxLinesBack
  simp [isCursorInsideFunctionCall]

/-- Witness for C2, applying the balance characterization at the end of
`"func("`. -/
theorem isCursorInsideFunctionCall_balance_witness :
    0 < getParenthesesBalance (scannedWindow ["func(".toList] 5 20) :=
  (isCursorInsideFunctionCall_balance.1 ["func(".toList] 5 20).mp (by decide)

/-- The `maxLinesBack` cut-off pinned by the test at
`isCursorInsideFunctionCall.test.ts` lines 199-211: an opening paren ten
lines up is seen with the default 20 but not with 2. -/
theorem isCursorInsideFunctionCall_maxLinesBack :
    isCursorInsideFunctionCall
      ("func(".toList :: (List.replicate 8 "  arg,".toList ++ ["  final".toList])) 67 20 = true ∧
    isCursorInsideFunctionCall
      ("func(".toList :: (List.replicate 8 "  arg,".toList ++ ["  final".toList])) 67 2 = false := by
  constructor <;> decide

/-! ## Completion trigger kind

Modelled from the spec: completion-trigger-kind inference (`plugin.ts` is
not in the snapshot; behaviour is pinned by
`src/src/__tests__/getCompletionTriggerKind.test.ts`).
-/

/-- The LSP completion trigger kinds used by the plugin. -/
inductive CompletionTriggerKind where
  | Invoked
  | TriggerCharacter
deriving DecidableEq, Repr

/-- A trigger-detection result: the kind plus the trigger character, when one
applies. -/
structure CompletionTrigger where
  triggerKind : CompletionTriggerKind
  triggerCharacter : Option Char
deriving DecidableEq, Repr

/-- A `\w` word character (ASCII letter, digit or underscore). -/
def isWordChar (c : Char) : Bool := c.isAlphanum || c = '_'

/-- Modelled from the spec: the default word/member-access completion
pattern — the text before the cursor ends in a word character, or in a word
character followed by `.` or `/`. -/
def matchesCompletionPattern (before : List Char) : Bool :=
  match before.reverse with
  | [] => false
  | c :: rest =>
    if isWordChar c then true
    else if c = '.' || c = '/' then
      match rest with
      | [] => false
      | d :: _ => isWordChar d
    else false

/-- Modelled from the spec: `getCompletionTriggerKind`.  Explicit invocation
wins, then a trigger character immediately before the cursor, then the
word/member-access pattern, else no trigger
(pinned by `getCompletionTriggerKind.test.ts`). -/
def getCompletionTriggerKind (before : List Char) (explicit : Bool)
    (triggerCharacters : List Char) : Option CompletionTrigger :=
  if explicit then some ⟨.Invoked, none⟩
  else
    match before.getLast? with
    | none => none
    | some c =>
      if triggerCharacters.contains c then some ⟨.TriggerCharacter, some c⟩
      else if matchesCompletionPattern before then some ⟨.Invoked, none⟩
      else none

/-- **C3.** Completion-trigger-kind inference follows the cascade: explicit
invocation yields Invoked with no character; else a final character in the
trigger list yields TriggerCharacter with that character (taking precedence
over the pattern); else a word/member-access pattern match yields Invoked;
else no trigger — including the spec's concrete example `"hello."` with
triggers `[".", "(", ","]`. -/
theorem getCompletionTriggerKind_cascade :
    (∀ (before : List Char) (triggers : List Char),
      getCompletionTriggerKind before true triggers = some ⟨.Invoked, none⟩) ∧
    (∀ (before : List Char) (c : Char) (triggers : List Char),
      before.getLast? = some c → triggers.contains c = true →
      getCompletionTriggerKind before false triggers = some ⟨.TriggerCharacter, some c⟩) ∧
    (∀ (before : List Char) (c : Char) (triggers : List Char),
      before.getLast? = some c → triggers.contains c = false →
      matchesCompletionPattern before = true →
      getCompletionTriggerKind before false triggers = some ⟨.Invoked, none⟩) ∧
    (∀ (before : List Char) (c : Char) (triggers : List Char),
      before.getLast? = some c → triggers.contains c = false →
      matchesCompletionPattern before = false →
      getCompletionTriggerKind before false triggers = none) ∧
    (∀ triggers : List Char, getCompletionTriggerKind [] false triggers = none) ∧
    getCompletionTriggerKind "hello.".toList false ['.', '(', ','] =
      some ⟨.TriggerCharacter, some '.'⟩ ∧
    getCompletionTriggerKind "hello.".toList true ['.', '(', ','] =
      some ⟨.Invoked, none⟩ := by
  refine ⟨?_, ?_, ?_, ?_, ?_, by decide, by decide⟩
  · intro before triggers
    simp [getCompletionTriggerKind]
  · intro before c triggers hlast htrig
    have hmem : c ∈ triggers := by simpa using htrig
    simp [getCompletionTriggerKind, hlast, hmem]
  · intro before c triggers hlast htrig hpat
    have hmem : c ∉ triggers := by simpa using htrig
    simp [getCompletionTriggerKind, hlast, hmem, hpat]
  · intro before c triggers hlast htrig hpat
    have hmem : c ∉ triggers := by simpa using htrig
    simp [getCompletionTriggerKind, hlast, hmem, hpat]
  · intro triggers
    simp [getCompletionTriggerKind]

/-- Witness for C3, instantiating each hypothesis-bearing case of the
cascade at the concrete inputs of the test file. -/
theorem getCompletionTriggerKind_cascade_witness :
    ("hello.".toList.getLast? = some '.' ∧
      (['.', '(', ','] : List Char).contains '.' = true ∧
      getCompletionTriggerKind "hello.".toList false ['.', '(', ','] =
        some ⟨.TriggerCharacter, some '.'⟩) ∧
    ("hello".toList.getLast? = some 'o' ∧
      (['.', '(', ','] : List Char).contains 'o' = false ∧
      matchesCompletionPattern "hello".toList = true ∧
      getCompletionTriggerKind "hello".toList false ['.', '(', ','] =
        some ⟨.Invoked, none⟩) ∧
    ("hello@".toList.getLast? = some '@' ∧
      (['.', '(', ','] : List Char).contains '@' = false ∧
      matchesCompletionPattern "hello@".toList = false ∧
      getCompletionTriggerKind "hello@".toList false ['.', '(', ','] = none) := by
  refine ⟨⟨by decide, by decide, ?_⟩, ⟨by decide, by decide, by decide, ?_⟩,
    ⟨by decide, by decide, by decide, ?_⟩⟩
  · exact getCompletionTriggerKind_cascade.2.1 "hello.".toList '.' ['.', '(', ',']
      (by decide) (by decide)
  · exact getCompletionTriggerKind_cascade.2.2.1 "hello".toList 'o' ['.', '(', ',']
      (by decide) (by decide) (by decide)
  · exact getCompletionTriggerKind_cascade.2.2.2.1 "hello@".toList '@' ['.', '(', ',']
      (by decide) (by decide) (by decide)

/-! ## Document synchronizer version counter

Modelled from the spec: `LanguageServerPlugin.sendChanges` (`plugin.ts` is
not in the snapshot; behaviour is pinned by
`src/src/__tests__/language-server-plugin.test.ts` lines 281-342).
-/

/-- One protocol change event: an incremental `{range, text}` span or a
full-document `{text}` replacement. -/
inductive ChangeEvent where
  | incremental (rangeStart rangeEnd : Pos) (text : String)
  | full (text : String)
deriving DecidableEq, Repr

/-- The `textDocument/didChange` payload fields the claims are about. -/
structure DidChangeParams where
  version : Nat
  contentChanges : List ChangeEvent
deriving DecidableEq, Repr

/-- The synchronizer state read and written by `sendChanges`. -/
structure PluginSyncState where
  clientReady : Bool
  documentVersion : Nat
deriving DecidableEq, Repr

/-- Modelled from the spec: `sendChanges`.  When the client is ready, bump
the per-document version by exactly one and emit one `didChange`
notification carrying the new version and the whole batch; when not ready,
a silent no-op. -/
def sendChanges (s : PluginSyncState) (contentChanges : List ChangeEvent) :
    PluginSyncState × Option DidChangeParams :=
  if s.clientReady then
    ({ s with documentVersion := s.documentVersion + 1 },
      some ⟨s.documentVersion + 1, contentChanges⟩)
  else (s, none)

/-- Sequential `sendChanges` calls, collecting the notifications sent. -/
def sendChangesAll (s : PluginSyncState) :
    List (List ChangeEvent) → PluginSyncState × List DidChangeParams
  | [] => (s, [])
  | batch :: rest =>
    match sendChanges s batch with
    | (s1, note) =>
      match sendChangesAll s1 rest with
      | (s2, notes) => (s2, note.toList ++ notes)

theorem sendChangesAll_versions (batches : List (List ChangeEvent)) :
    ∀ s : PluginSyncState, s.clientReady = true →
      (sendChangesAll s batches).2.map DidChangeParams.version
          = List.range' (s.documentVersion + 1) batches.length ∧
      (sendChangesAll s batches).1
          = ⟨true, s.documentVersion + batches.length⟩ := by
  induction batches with
  | nil =>
    intro s hs
    constructor
    · simp [sendChangesAll, List.range']
    · simp only [sendChangesAll, List.length_nil, Nat.add_zero]
      cases s
      simp_all
  | cons batch rest ih =>
    intro s hs
    have step : sendChanges s batch
        = ({ s with documentVersion := s.documentVersion + 1 },
            some ⟨s.documentVersion + 1, batch⟩) := by
      simp [sendChanges, hs]
    obtain ⟨ih1, ih2⟩ := ih { s with documentVersion := s.documentVersion + 1 } (by simpa using hs)
    constructor
    · simp [sendChangesAll, step, ih1, List.range']
    · simp [sendChangesAll, step, ih2]
      omega

/-- **C4.** From a ready state, N sequential `sendChanges` calls send N
change notifications whose versions are the N consecutive integers starting
one above the stored version — strictly increasing, no gaps, one bump per
call regardless of how many edit spans each batch carried. -/
theorem sendChanges_version_monotonic (s : PluginSyncState)
    (batches : List (List ChangeEvent)) (hready : s.clientReady = true) :
    (sendChangesAll s batches).2.length = batches.length ∧
    (sendChangesAll s batches).2.map DidChangeParams.version
      = List.range' (s.documentVersion + 1) batches.length ∧
    List.Chain' (· < ·) ((sendChangesAll s batches).2.map DidChangeParams.version) ∧
    (∀ other : List (List ChangeEvent), other.length = batches.length →
      (sendChangesAll s other).2.map DidChangeParams.version
        = (sendChangesAll s batches).2.map DidChangeParams.version) := by
  obtain ⟨h1, _⟩ := sendChangesAll_versions batches s hready
  refine ⟨?_, h1, ?_, ?_⟩
  · have := congrArg List.length h1
    simpa using this
  · rw [h1]
    have : ∀ a n : Nat, List.Chain' (· < ·) (List.range' a n) := by
      intro a n
      induction n generalizing a with
      | zero => simp [List.range']
      | succ n ihn =>
        rw [List.range'_succ]
        cases n with
        | zero => simp [List.range']
        | succ m =>
          rw [List.chain'_cons']
          refine ⟨?_, ihn (a + 1)⟩
          intro y hy
          rw [List.range'_succ] at hy
          simp at hy
          omega
    exact this _ _
  · intro other hlen
    obtain ⟨h1', _⟩ := sendChangesAll_versions other s hready
    rw [h1', h1, hlen]

/-- Witness for C4: three calls with 1, 0 and 2 edit spans from a ready
state at version 0 send versions `[1, 2, 3]`. -/
theorem sendChanges_version_monotonic_witness :
    (⟨true, 0⟩ : PluginSyncState).clientReady = true ∧
    (sendChangesAll ⟨true, 0⟩
        [[ChangeEvent.full "a"], [],
          [ChangeEvent.incremental ⟨0, 0⟩ ⟨0, 1⟩ "b", ChangeEvent.full "c"]]).2.map
      DidChangeParams.version = List.range' 1 3 := by
  refine ⟨rfl, ?_⟩
  exact (sendChanges_version_monotonic ⟨true, 0⟩
    [[ChangeEvent.full "a"], [],
      [ChangeEvent.incremental ⟨0, 0⟩ ⟨0, 1⟩ "b", ChangeEvent.full "c"]] rfl).2.1

/-! ## Language-server session: initialize idempotence

From `lsp.ts` (`src/unnamed/part_005`): the constructor runs
`this.initializePromise = this.initialize()` (lines 264-268), and
`initialize()` (lines 364-373) requests `initialize`, stores the returned
capabilities, sends the `initialized` notification and sets `ready`.
JavaScript promise semantics are embedded explicitly: an async function's
body runs once, when the function is called; awaiting the stored, settled
promise reads the cached settlement and re-runs nothing.
-/

/-- The observable session state of `LanguageServerClient`, together with
counters for the protocol traffic the initialize exchange produces. -/
structure SessionState (Caps : Type) where
  ready : Bool
  capabilities : Option Caps
  initializeRequestCount : Nat
  initializedNotifyCount : Nat
deriving DecidableEq, Repr

/-- Constructor field initialisation: `ready = false`, `capabilities = null`. -/
def initialSessionState (Caps : Type) : SessionState Caps :=
  ⟨false, none, 0, 0⟩

/-- One run of the body of `initialize()`: send the `initialize` request
(whose reply carries `caps`), store the capabilities, send the
`initialized` notification, set `ready = true`. -/
def runInitializeBody {Caps : Type} (caps : Caps) (s : SessionState Caps) :
    SessionState Caps :=
  { ready := true
    capabilities := some caps
    initializeRequestCount := s.initializeRequestCount + 1
    initializedNotifyCount := s.initializedNotifyCount + 1 }

/-- A settled promise as JavaScript models it: the async body already ran,
exactly once, and the promise caches its settlement. -/
structure StoredPromise (Caps : Type) where
  settled : SessionState Caps
deriving DecidableEq, Repr

/-- The constructor: `this.initializePromise = this.initialize()` — the
body of `initialize()` runs once and its settlement is stored. -/
def constructClient {Caps : Type} (caps : Caps) :
    SessionState Caps × StoredPromise Caps :=
  match runInitializeBody caps (initialSessionState Caps) with
  | s => (s, ⟨s⟩)

/-- Awaiting the stored promise: reads the cached settlement, re-runs
nothing, leaves the session state unchanged. -/
def awaitStoredPromise {Caps : Type} (_ : StoredPromise Caps)
    (s : SessionState Caps) : SessionState Caps := s

/-- `n` successive awaits of the stored promise. -/
def awaitNTimes {Caps : Type} (p : StoredPromise Caps) (s : SessionState Caps) :
    Nat → SessionState Caps
  | 0 => s
  | n + 1 => awaitNTimes p (awaitStoredPromise p s) n

theorem awaitNTimes_id {Caps : Type} (p : StoredPromise Caps)
    (s : SessionState Caps) : ∀ n, awaitNTimes p s n = s
  | 0 => rfl
  | n + 1 => awaitNTimes_id p s n

/-- **C8.** The session's initialize operation is idempotent via the stored
promise: however many times the stored promise is awaited, the initialize
request and the `initialized` notification were each sent exactly once,
`ready` has flipped from the constructor's `false` to `true` exactly once,
and the stored capabilities are unchanged. -/
theorem initializePromise_idempotent (Caps : Type) (caps : Caps) (n : Nat) :
    awaitNTimes (constructClient caps).2 (constructClient caps).1 (n + 1)
        = awaitNTimes (constructClient caps).2 (constructClient caps).1 1 ∧
    (awaitNTimes (constructClient caps).2 (constructClient caps).1 (n + 1))
        = ⟨true, some caps, 1, 1⟩ ∧
    (initialSessionState Caps).ready = false := by
  rw [awaitNTimes_id, awaitNTimes_id]
  exact ⟨rfl, rfl, rfl⟩

/-! ## Notification fan-out

From `lsp.ts` (`src/unnamed/part_005`): `onNotification` (lines 439-443)
adds a listener to the `notificationListeners` `Set` and returns a disposer
that deletes it; `processNotification` (lines 460-462) runs
`this.notificationListeners.forEach((l) => l(notification))`.
JavaScript `Set.prototype.forEach` iterates the **live** set in insertion
order: a member deleted by an earlier callback before its own visit is not
visited.  Listeners are identified by `Nat`; `detach x` is the set of
listeners that listener `x` detaches (via their disposers) while handling
the notification.
-/

/-- `Set.forEach` over the live registry, tracking the deletions performed
so far: a listener already deleted is skipped, otherwise it is invoked and
its detachments take effect for the rest of the iteration.  Returns the
invocation sequence. -/
def dispatchNotificationAux (detach : Nat → List Nat) (deleted : List Nat) :
    List Nat → List Nat
  | [] => []
  | x :: rest =>
    if deleted.contains x then dispatchNotificationAux detach deleted rest
    else x :: dispatchNotificationAux detach (detach x ++ deleted) rest

/-- `LanguageServerClient.processNotification`: fan a notification out to
the listener registry via live-set iteration. -/
def dispatchNotification (detach : Nat → List Nat) (listeners : List Nat) :
    List Nat :=
  dispatchNotificationAux detach [] listeners

/-- Modelled from the spec: dispatch as the spec words it — iterate over a
snapshot of the registry taken when dispatch begins, so every listener
registered at that moment is invoked exactly once regardless of detachments
performed during dispatch. -/
def dispatchNotificationSnapshotSpec (_ : Nat → List Nat)
    (listeners : List Nat) : List Nat :=
  listeners

/-- Listener 0 detaches listener 1 during its own handling. -/
def detachOtherListener : Nat → List Nat :=
  fun x => if x = 0 then [1] else []

/-- Counterexample to C9 as stated: with listeners `[0, 1]` where listener 0
detaches listener 1 during its own handling, the code's live-set iteration
invokes only listener 0, while snapshot dispatch would invoke both. -/
theorem processNotification_not_snapshot_counterexample :
    dispatchNotification detachOtherListener [0, 1] = [0] ∧
    dispatchNotificationSnapshotSpec detachOtherListener [0, 1] = [0, 1] ∧
    dispatchNotification detachOtherListener [0, 1]
      ≠ dispatchNotificationSnapshotSpec detachOtherListener [0, 1] := by
  refine ⟨?_, rfl, ?_⟩ <;> decide

theorem dispatchNotificationAux_sublist (detach : Nat → List Nat) :
    ∀ (l deleted : List Nat), (dispatchNotificationAux detach deleted l).Sublist l := by
  intro l
  induction l with
  | nil => intro deleted; simp [dispatchNotificationAux]
  | cons x rest ih =>
    intro deleted
    rw [dispatchNotificationAux]
    by_cases h : deleted.contains x
    · rw [if_pos h]
      exact (ih deleted).cons x
    · rw [if_neg h]
      exact (ih (detach x ++ deleted)).cons₂ x

theorem dispatchNotificationAux_self_only (detach : Nat → List Nat) :
    ∀ (l deleted : List Nat), l.Nodup → (∀ x ∈ l, detach x ⊆ [x]) →
      (∀ y ∈ deleted, y ∉ l) → dispatchNotificationAux detach deleted l = l := by
  intro l
  induction l with
  | nil => intro deleted _ _ _; rfl
  | cons x rest ih =>
    intro deleted hnd hself hdel
    have hx : ¬ deleted.contains x := by
      intro hc
      exact hdel x (by simpa using hc) (by simp)
    rw [dispatchNotificationAux, if_neg hx]
    have hrest : dispatchNotificationAux detach (detach x ++ deleted) rest = rest := by
      refine ih (detach x ++ deleted) (List.Nodup.of_cons hnd)
        (fun y hy => hself y (List.mem_cons_of_mem x hy)) ?_
      intro y hy hyrest
      rcases List.mem_append.mp hy with hy1 | hy2
      · have : y = x := by simpa using hself x (by simp) hy1
        subst this
        exact (List.nodup_cons.mp hnd).1 hyrest
      · exact hdel y hy2 (List.mem_cons_of_mem x hyrest)
    rw [hrest]

/-- **C9 (amended).** Dispatch invokes each listener at most once and in
registration order (the invocation sequence is a duplicate-free sublist of
the registry); when every listener detaches at most itself, every listener
registered when dispatch begins is invoked exactly once.  The snapshot
guarantee of the original claim does not hold: iteration is over the live
set, so a listener detached by an earlier-invoked listener is skipped. -/
theorem processNotification_live_set_delivery (detach : Nat → List Nat)
    (listeners : List Nat) (hnd : listeners.Nodup) :
    (dispatchNotification detach listeners).Sublist listeners ∧
    (dispatchNotification detach listeners).Nodup ∧
    ((∀ x ∈ listeners, detach x ⊆ [x]) →
      dispatchNotification detach listeners = listeners) := by
  have hsub := dispatchNotificationAux_sublist detach listeners []
  refine ⟨hsub, hsub.nodup hnd, ?_⟩
  intro hself
  exact dispatchNotificationAux_self_only detach listeners [] hnd hself (by simp)

/-- Witness for C9's amended theorem: three listeners, each detaching only
itself, are all invoked exactly once in registration order. -/
theorem processNotification_live_set_delivery_witness :
    ([5, 7, 9] : List Nat).Nodup ∧
    dispatchNotification (fun x => [x]) [5, 7, 9] = [5, 7, 9] := by
  refine ⟨by decide, ?_⟩
  exact (processNotification_live_set_delivery (fun x => [x]) [5, 7, 9]
    (by decide)).2.2 (fun x _ => by simp)


/-! ## Completion ranker

From `src/completion.ts` lines 192-258: `sortCompletionItems`,
`prefixSortCompletion`, `nameSortCompletion`, `pythonSortCompletion`.
String operations are carried out on the character lists underlying the
strings.  Two pieces of JavaScript library behaviour are embedded
explicitly:

* `String.prototype.localeCompare` under the default locale, modelled for
  ASCII as a primary pass over the case-folded characters with a
  lowercase-before-uppercase tiebreak at the first case difference (the
  ordering the repository's own `sortCompletionItems` tests pin down:
  `["Zebra", "alpha", "Test"]` sorts to `["alpha", "Test", "Zebra"]`);
  full ICU collation is not modelled.
* `Array.prototype.sort`, which sorts **in place** and (per ES2019) is
  stable; for a consistent comparator its result is the unique stable
  order, modelled here by a stable insertion sort.
-/

/-- An LSP completion item, restricted to the fields the ranker reads. -/
structure CompletionItem where
  label : String
  sortText : Option String
  filterText : Option String
deriving DecidableEq, Repr

/-- `a.startsWith(b)` on the underlying characters. -/
def strStartsWith (s p : String) : Bool := p.toList.isPrefixOf s.toList

/-- `s.endsWith(c)` for a single character: the last character is `c`. -/
def strEndsWithChar (s : String) (c : Char) : Bool :=
  match s.toList.getLast? with
  | some d => d == c
  | none => false

/-- `s.toLowerCase()` on the underlying characters. -/
def lowerChars (s : String) : List Char := s.toList.map Char.toLower

/-- Three-way lexicographic comparison of number sequences. -/
def cmpNatList : List Nat → List Nat → Int
  | [], [] => 0
  | [], _ :: _ => -1
  | _ :: _, [] => 1
  | a :: as, b :: bs => if a < b then -1 else if b < a then 1 else cmpNatList as bs

/-- ASCII model of `String.prototype.localeCompare` (default locale): compare
the case-folded code sequences; on a tie, lowercase sorts before uppercase at
the first position whose case differs. -/
def localeCompare (a b : String) : Int :=
  match cmpNatList (a.toList.map (fun c => c.toLower.toNat))
      (b.toList.map (fun c => c.toLower.toNat)) with
  | Int.ofNat 0 => cmpNatList (a.toList.map (fun c => if c.isUpper then 1 else 0))
      (b.toList.map (fun c => if c.isUpper then 1 else 0))
  | p => p

/-- Raw code-unit comparison — what "compared
case-sensitively/lexicographically" denotes for ASCII strings. -/
def codeUnitCompare (a b : String) : Int :=
  cmpNatList (a.toList.map Char.toNat) (b.toList.map Char.toNat)

/-- Stable insertion: `x` goes before the first element it compares
strictly less than, after every element it ties with. -/
def insertStable {α : Type} (cmp : α → α → Int) (x : α) : List α → List α
  | [] => [x]
  | y :: ys => if cmp x y < 0 then x :: y :: ys else y :: insertStable cmp x ys

/-- Stable three-way-comparator sort: models `Array.prototype.sort` for a
consistent comparator. -/
def stableSortBy {α : Type} (cmp : α → α → Int) (l : List α) : List α :=
  l.foldl (fun acc x => insertStable cmp x acc) []

/-- `sortText ?? label` — the ranker's sort key (completion.ts 229-230). -/
def sortKeyOf (item : CompletionItem) : String :=
  item.sortText.getD item.label

/-- `prefixSortCompletion` (completion.ts 224-239): token-prefix group
first, `localeCompare` of the keys otherwise. -/
def prefixSortCompletion (matchBefore : String) (a b : CompletionItem) : Int :=
  if strStartsWith (sortKeyOf a) matchBefore
      && !(strStartsWith (sortKeyOf b) matchBefore) then -1
  else if !(strStartsWith (sortKeyOf a) matchBefore)
      && strStartsWith (sortKeyOf b) matchBefore then 1
  else localeCompare (sortKeyOf a) (sortKeyOf b)

/-- `nameSortCompletion` (completion.ts 241-245). -/
def nameSortCompletion (a b : CompletionItem) : Int :=
  localeCompare (sortKeyOf a) (sortKeyOf b)

/-- `pythonSortCompletion` (completion.ts 247-258): labels ending in `=`
first, everything else tied. -/
def pythonSortCompletion (a b : CompletionItem) : Int :=
  if strEndsWithChar a.label '=' && !(strEndsWithChar b.label '=') then -1
  else if !(strEndsWithChar a.label '=') && strEndsWithChar b.label '=' then 1
  else 0

/-- A `/^\w+$/` match: nonempty, all word characters. -/
def isWordToken (s : List Char) : Bool :=
  !s.isEmpty && s.all isWordChar

/-- Whether the filter branch ran and therefore created a fresh array
(completion.ts 205-214): it requires a truthy (nonempty) token whose
lower-cased form is a pure word token. -/
def filterCreatesFreshArray (matchBefore : Option String) : Bool :=
  match matchBefore with
  | none => false
  | some mb => !mb.toList.isEmpty && isWordToken (lowerChars mb)

/-- The list held by `result` after the filter step (completion.ts 202-215):
when the filter ran, the items whose `filterText ?? label` lower-cases to a
string starting with the lower-cased token; otherwise the input list. -/
def filteredItems (items : List CompletionItem) (matchBefore : Option String) :
    List CompletionItem :=
  match matchBefore with
  | none => items
  | some mb =>
    if !mb.toList.isEmpty && isWordToken (lowerChars mb) then
      items.filter (fun i =>
        (lowerChars mb).isPrefixOf (lowerChars (i.filterText.getD i.label)))
    else items

/-- The comparator picked at completion.ts 198: `matchBefore ?
prefixSortCompletion(matchBefore) : nameSortCompletion` (JS truthiness, so
an empty-string token selects `nameSortCompletion`). -/
def selectedComparator (matchBefore : Option String) :
    CompletionItem → CompletionItem → Int :=
  match matchBefore with
  | none => nameSortCompletion
  | some mb => if mb.toList.isEmpty then nameSortCompletion else prefixSortCompletion mb

/-- `sortCompletionItems` (completion.ts 192-222): filter on a word token,
sort with the token-aware comparator, then re-sort with the Python
keyword-argument pass when the language is `"python"`. -/
def sortCompletionItems (items : List CompletionItem) (matchBefore : Option String)
    (language : String) : List CompletionItem :=
  if language = "python" then
    stableSortBy pythonSortCompletion
      (stableSortBy (selectedComparator matchBefore) (filteredItems items matchBefore))
  else
    stableSortBy (selectedComparator matchBefore) (filteredItems items matchBefore)

/-- The caller's `items` array after `sortCompletionItems` returns:
`Array.prototype.sort` sorts in place, and when the word-token filter did
not run `result` still aliases `items` (completion.ts 202), so the caller's
array is reordered; when the filter ran, `result` is a fresh array and the
caller's array keeps its order. -/
def itemsAfterSortCompletionItems (items : List CompletionItem)
    (matchBefore : Option String) (language : String) : List CompletionItem :=
  if filterCreatesFreshArray matchBefore then items
  else sortCompletionItems items matchBefore language

theorem insertStable_perm {α : Type} (cmp : α → α → Int) (x : α) :
    ∀ l : List α, (insertStable cmp x l).Perm (x :: l)
  | [] => List.Perm.refl _
  | y :: ys => by
    rw [insertStable]
    by_cases h : cmp x y < 0
    · rw [if_pos h]
    · rw [if_neg h]
      exact ((insertStable_perm cmp x ys).cons y).trans (List.Perm.swap x y ys)

theorem stableSortBy_perm {α : Type} (cmp : α → α → Int) (l : List α) :
    (stableSortBy cmp l).Perm l := by
  have key : ∀ (l acc : List α),
      (l.foldl (fun acc x => insertStable cmp x acc) acc).Perm (l ++ acc) := by
    intro l
    induction l with
    | nil => intro acc; simp
    | cons x rest ih =>
      intro acc
      have h1 := ih (insertStable cmp x acc)
      have h2 : (rest ++ insertStable cmp x acc).Perm (rest ++ x :: acc) :=
        List.Perm.append_left rest (insertStable_perm cmp x acc)
      have h3 : (rest ++ x :: acc).Perm (x :: (rest ++ acc)) := List.perm_middle
      simpa using (h1.trans h2).trans h3
  simpa using key l []

/-- Adjacency check for the grouping invariant: a `false`-group element may
not be immediately followed by a `true`-group element. -/
def okAdj {α : Type} (g : α → Bool) (x : α) : Option α → Bool
  | none => true
  | some y => g x || !g y

/-- All `true`-group elements of the list come before all `false`-group
elements (checked via adjacent pairs). -/
def groupedBy {α : Type} (g : α → Bool) : List α → Bool
  | [] => true
  | x :: rest => okAdj g x rest.head? && groupedBy g rest

theorem insertStable_head {α : Type} (cmp : α → α → Int) (x : α) :
    ∀ l : List α, (insertStable cmp x l).head? = some x ∨
      (insertStable cmp x l).head? = l.head?
  | [] => Or.inl rfl
  | y :: ys => by
    rw [insertStable]
    by_cases h : cmp x y < 0
    · rw [if_pos h]
      exact Or.inl rfl
    · rw [if_neg h]
      exact Or.inr rfl

theorem insertStable_grouped {α : Type} (g : α → Bool) (cmp : α → α → Int)
    (hneg : ∀ a b, g a = true → g b = false → cmp a b < 0)
    (hpos : ∀ a b, g a = false → g b = true → 0 < cmp a b) (x : α) :
    ∀ l : List α, groupedBy g l = true → groupedBy g (insertStable cmp x l) = true
  | [], _ => by simp [insertStable, groupedBy, okAdj]
  | y :: ys, h => by
    rw [groupedBy, Bool.and_eq_true] at h
    obtain ⟨hadj, hgr⟩ := h
    rw [insertStable]
    by_cases hc : cmp x y < 0
    · rw [if_pos hc, groupedBy, Bool.and_eq_true]
      refine ⟨?_, by rw [groupedBy, Bool.and_eq_true]; exact ⟨hadj, hgr⟩⟩
      show okAdj g x (some y) = true
      by_cases hgx : g x
      · simp [okAdj, hgx]
      · have hgx' : g x = false := by simpa using hgx
        have hgy : g y = false := by
          by_contra hy
          have := hpos x y hgx' (by simpa using hy)
          omega
        simp [okAdj, hgy]
    · rw [if_neg hc, groupedBy, Bool.and_eq_true]
      refine ⟨?_, insertStable_grouped g cmp hneg hpos x ys hgr⟩
      rcases insertStable_head cmp x ys with hh | hh
      · rw [hh]
        show okAdj g y (some x) = true
        by_cases hgy : g y
        · simp [okAdj, hgy]
        · have hgy' : g y = false := by simpa using hgy
          have hgx : g x = false := by
            by_contra hx
            have := hneg x y (by simpa using hx) hgy'
            omega
          simp [okAdj, hgx]
      · rw [hh]
        exact hadj

theorem stableSortBy_grouped {α : Type} (g : α → Bool) (cmp : α → α → Int)
    (hneg : ∀ a b, g a = true → g b = false → cmp a b < 0)
    (hpos : ∀ a b, g a = false → g b = true → 0 < cmp a b) (l : List α) :
    groupedBy g (stableSortBy cmp l) = true := by
  have key : ∀ (l acc : List α), groupedBy g acc = true →
      groupedBy g (l.foldl (fun acc x => insertStable cmp x acc) acc) = true := by
    intro l
    induction l with
    | nil => intro acc h; simpa using h
    | cons x rest ih =>
      intro acc h
      exact ih _ (insertStable_grouped g cmp hneg hpos x acc h)
  exact key l [] rfl

theorem prefixSortCompletion_respects (tok : String) :
    (∀ a b : CompletionItem, strStartsWith (sortKeyOf a) tok = true →
      strStartsWith (sortKeyOf b) tok = false → prefixSortCompletion tok a b < 0) ∧
    (∀ a b : CompletionItem, strStartsWith (sortKeyOf a) tok = false →
      strStartsWith (sortKeyOf b) tok = true → 0 < prefixSortCompletion tok a b) := by
  constructor <;> intro a b ha hb <;> simp [prefixSortCompletion, ha, hb]

/-- Modelled from the claim's words (C6), no-token case: rank by the
`sortText ?? label` key compared case-sensitively/lexicographically, i.e.
by raw code units. -/
def sortCompletionItemsSpecC6 (items : List CompletionItem) : List CompletionItem :=
  stableSortBy (fun a b => codeUnitCompare (sortKeyOf a) (sortKeyOf b)) items

/-- Counterexample to C6 as stated: on `["Zebra", "alpha", "Test"]` (the
repository's own case-handling test input) the code's `localeCompare`
ranking yields `["alpha", "Test", "Zebra"]`, while the claimed
case-sensitive/lexicographic comparison would yield
`["Test", "Zebra", "alpha"]`. -/
theorem sortCompletionItems_localeCompare_counterexample :
    sortCompletionItems
        [⟨"Zebra", none, none⟩, ⟨"alpha", none, none⟩, ⟨"Test", none, none⟩]
        none "javascript"
      = [⟨"alpha", none, none⟩, ⟨"Test", none, none⟩, ⟨"Zebra", none, none⟩] ∧
    sortCompletionItemsSpecC6
        [⟨"Zebra", none, none⟩, ⟨"alpha", none, none⟩, ⟨"Test", none, none⟩]
      = [⟨"Test", none, none⟩, ⟨"Zebra", none, none⟩, ⟨"alpha", none, none⟩] ∧
    sortCompletionItems
        [⟨"Zebra", none, none⟩, ⟨"alpha", none, none⟩, ⟨"Test", none, none⟩]
        none "javascript"
      ≠ sortCompletionItemsSpecC6
        [⟨"Zebra", none, none⟩, ⟨"alpha", none, none⟩, ⟨"Test", none, none⟩] := by
  refine ⟨by decide, by decide, by decide⟩

/-- **C6 (amended).** The primary sort key is `sortText` if present else
`label`, but it is compared with `localeCompare` (locale-aware:
case-insensitive base order with a lowercase-first tiebreak), not raw
case-sensitive lexicographic order; when a token is present and the Python
keyword-argument pass does not apply, every candidate whose key starts with
the token is ordered entirely before every candidate whose key does not;
within each group candidates are ordered by the same locale comparison, so
the original order survives only between comparison ties. -/
theorem sortCompletionItems_ranking_amended :
    (∀ (items : List CompletionItem) (tok : String) (language : String),
      tok.toList.isEmpty = false → language ≠ "python" →
      groupedBy (fun i => strStartsWith (sortKeyOf i) tok)
        (sortCompletionItems items (some tok) language) = true) ∧
    sortCompletionItems
        [⟨"zebra", some "1", none⟩, ⟨"alpha", some "2", none⟩, ⟨"test", some "0", none⟩]
        none "javascript"
      = [⟨"test", some "0", none⟩, ⟨"zebra", some "1", none⟩, ⟨"alpha", some "2", none⟩] ∧
    sortCompletionItems [⟨"testz", none, none⟩, ⟨"testa", none, none⟩]
        (some "te") "javascript"
      = [⟨"testa", none, none⟩, ⟨"testz", none, none⟩] := by
  refine ⟨?_, by decide, by decide⟩
  intro items tok language htok hlang
  have hne : ¬ (tok.toList.isEmpty = true) := by simpa using htok
  have hsel : selectedComparator (some tok) = prefixSortCompletion tok :=
    calc selectedComparator (some tok)
        = if tok.toList.isEmpty then nameSortCompletion else prefixSortCompletion tok := rfl
      _ = prefixSortCompletion tok := if_neg hne
  rw [sortCompletionItems, if_neg hlang, hsel]
  exact stableSortBy_grouped _ _ (prefixSortCompletion_respects tok).1
    (prefixSortCompletion_respects tok).2 _

/-- Witness for C6's amended theorem at the test input
`["zebra", "alpha", "test", "testing"]`, token `"te"`. -/
theorem sortCompletionItems_ranking_amended_witness :
    ("te" : String).toList.isEmpty = false ∧ ("javascript" : String) ≠ "python" ∧
    groupedBy (fun i => strStartsWith (sortKeyOf i) "te")
      (sortCompletionItems
        [⟨"zebra", none, none⟩, ⟨"alpha", none, none⟩,
          ⟨"test", none, none⟩, ⟨"testing", none, none⟩]
        (some "te") "javascript") = true := by
  refine ⟨by decide, by decide, ?_⟩
  exact sortCompletionItems_ranking_amended.1
    [⟨"zebra", none, none⟩, ⟨"alpha", none, none⟩,
      ⟨"test", none, none⟩, ⟨"testing", none, none⟩]
    "te" "javascript" (by decide) (by decide)

/-- Counterexample to C7 as stated: with no token, `result` aliases the
caller's array and `Array.prototype.sort` reorders it in place — after
`sortCompletionItems(items, undefined, "javascript")` on
`["zebra", "alpha"]` the caller's array reads `["alpha", "zebra"]`. -/
theorem sortCompletionItems_mutation_counterexample :
    itemsAfterSortCompletionItems
        [⟨"zebra", none, none⟩, ⟨"alpha", none, none⟩] none "javascript"
      = [⟨"alpha", none, none⟩, ⟨"zebra", none, none⟩] ∧
    itemsAfterSortCompletionItems
        [⟨"zebra", none, none⟩, ⟨"alpha", none, none⟩] none "javascript"
      ≠ [⟨"zebra", none, none⟩, ⟨"alpha", none, none⟩] := by
  constructor <;> decide

/-- **C7 (amended).** Ranking never mutates the candidate items themselves,
and the returned list is a reordering (permutation) of the filtered
candidate list; when the word-token filter ran, the returned list is a
fresh array and the caller's list keeps its order — but in every other case
the in-place sorts reorder the caller's array itself, so no new ordered
view is produced. -/
theorem sortCompletionItems_frame (items : List CompletionItem)
    (matchBefore : Option String) (language : String) :
    (sortCompletionItems items matchBefore language).Perm
        (filteredItems items matchBefore) ∧
    (itemsAfterSortCompletionItems items matchBefore language = items ∨
      itemsAfterSortCompletionItems items matchBefore language
        = sortCompletionItems items matchBefore language) ∧
    (filterCreatesFreshArray matchBefore = true →
      itemsAfterSortCompletionItems items matchBefore language = items) := by
  refine ⟨?_, ?_, ?_⟩
  · rw [sortCompletionItems]
    by_cases h : language = "python"
    · rw [if_pos h]
      exact (stableSortBy_perm _ _).trans (stableSortBy_perm _ _)
    · rw [if_neg h]
      exact stableSortBy_perm _ _
  · rw [itemsAfterSortCompletionItems]
    by_cases h : filterCreatesFreshArray matchBefore
    · rw [if_pos h]
      exact Or.inl rfl
    · rw [if_neg h]
      exact Or.inr rfl
  · intro h
    rw [itemsAfterSortCompletionItems, if_pos h]

/-- Witness for C7's amended theorem: with word token `"te"` the filter
creates a fresh array and the caller's list keeps its order. -/
theorem sortCompletionItems_frame_witness :
    filterCreatesFreshArray (some "te") = true ∧
    itemsAfterSortCompletionItems
        [⟨"zebra", none, none⟩, ⟨"test", none, none⟩] (some "te") "javascript"
      = [⟨"zebra", none, none⟩, ⟨"test", none, none⟩] := by
  refine ⟨by decide, ?_⟩
  exact (sortCompletionItems_frame
    [⟨"zebra", none, none⟩, ⟨"test", none, none⟩] (some "te") "javascript").2.2
    (by decide)
